import Mathlib

/-!
Shallow embedding of the IRR and XIRR solvers of `src/finance.ts`
(class `Finance`), together with theorems checking the repository's
specification against them.

Modelling conventions:
* JavaScript numbers are modelled by `ℚ` for the IRR solver (every rate it
  visits is produced from integers by steps of `1` and `0.01`, so the
  whole search is rational and the model stays executable) and by `ℝ` for
  the XIRR solver (whose discounting uses `Math.pow` with fractional
  exponents, i.e. real `rpow`).
* The thrown `Error`s become explicit error values (`IRRError`,
  `XIRRError`), one constructor per distinct throw site / message.
* The mutable counter `numberOfTries` of `IRR` (initialised to `1`, then
  incremented and compared against the cap `cfs` at the start of every
  call of the inner `npv` closure) is threaded through the search as an
  explicit `ℤ` state (`seekUpTries`, `seekDownTries`).  An equivalent
  structural-fuel formulation (`seekUp`, `seekDown`) with
  `fuel = (cfs - numberOfTries).toNat` — the number of `npv` calls that
  may still complete before the cap check `numberOfTries > cfs` fires —
  is proved to coincide with it and is used for concrete evaluation.
* `Date` values are epoch milliseconds (`ℤ`), which is exactly what
  `getTime()` returns and all `durYear` reads from a date.
-/

namespace Finance

/-- Errors thrown by `Finance.IRR` in `src/finance.ts`: `invalidInput` is
the throw "IRR requires at least one positive value and one negative
value" (lines 67-71), `convergenceFailure` is the throw "IRR can't find a
result" inside the inner `npv` closure (lines 74-76). -/
inductive IRRError where
  | invalidInput
  | convergenceFailure
deriving DecidableEq

/-- The pure value computed by the inner `npv` closure of `IRR`
(lines 77-82 of `src/finance.ts`): `rrate = 1 + rate / 100`,
`npv = cashFlows[0]`, then `npv += cashFlows[i] / rrate^i` for
`i = 1, …, cashFlows.length - 1` (the loop indices are
`List.range' 1 (cashFlows.length - 1)`). -/
def npvAt (cashFlows : List ℚ) (rate : ℚ) : ℚ :=
  let rrate : ℚ := 1 + rate / 100
  (List.range' 1 (cashFlows.length - 1)).foldl
    (fun npv i => npv + cashFlows.getD i 0 / rrate ^ i) (cashFlows.getD 0 0)

/-- First loop of `seekZero` (lines 431-434 of `src/finance.ts`) with the
counter of the `npv` closure threaded explicitly: each call of `npv` first
sets `numberOfTries := t + 1`, throws `convergenceFailure` when the new
counter exceeds the cap `cfs` (lines 73-76), and otherwise evaluates the
net present value; the loop steps `x += 1` while that value is `> 0`.  On
normal exit it returns the final `x` together with the counter. -/
def seekUpTries (cfs : ℤ) (cashFlows : List ℚ) (x : ℚ) (t : ℤ) :
    Except IRRError (ℚ × ℤ) :=
  if h : t + 1 > cfs then .error .convergenceFailure
  else if 0 < npvAt cashFlows x then seekUpTries cfs cashFlows (x + 1) (t + 1)
  else .ok (x, t + 1)
termination_by (cfs - t).toNat
decreasing_by omega

/-- Second loop of `seekZero` (lines 435-437 of `src/finance.ts`), again
with the counter of the `npv` closure threaded explicitly: the loop steps
`x -= 0.01` while the net present value is `< 0`, and every evaluation
increments the same counter and is checked against the same cap `cfs`. -/
def seekDownTries (cfs : ℤ) (cashFlows : List ℚ) (x : ℚ) (t : ℤ) :
    Except IRRError (ℚ × ℤ) :=
  if h : t + 1 > cfs then .error .convergenceFailure
  else if npvAt cashFlows x < 0 then
    seekDownTries cfs cashFlows (x - 1 / 100) (t + 1)
  else .ok (x, t + 1)
termination_by (cfs - t).toNat
decreasing_by omega

/-- `seekZero` (lines 430-439 of `src/finance.ts`) applied to the `npv`
closure of `IRR`: starting at `x = 1` with `numberOfTries = 1`, run the
ascending loop, then the descending loop (the counter continuing from
where the first loop left it), and return `x + 0.01` together with the
final counter.  A `convergenceFailure` thrown by either loop propagates. -/
def seekZeroTries (cfs : ℤ) (cashFlows : List ℚ) : Except IRRError (ℚ × ℤ) :=
  match seekUpTries cfs cashFlows 1 1 with
  | .error e => .error e
  | .ok (x, t) =>
    match seekDownTries cfs cashFlows x t with
    | .error e => .error e
    | .ok (y, t2) => .ok (y + 1 / 100, t2)

/-- `Math.round (q * 100) / 100`, the 2-decimal rounding applied by `IRR`
(line 84) and `XIRR` (line 131).  `Math.round` rounds half towards `+∞`,
which is Mathlib's `round` (`round q = ⌊q + 1/2⌋`). -/
def round2 (q : ℚ) : ℚ := ((round (q * 100) : ℤ) : ℚ) / 100

/-- `Finance.IRR` (lines 59-85 of `src/finance.ts`): first the sign check
on the cash flows (the `forEach` sets `positive` when some value is `> 0`
and `negative` when some value is `< 0`; when either flag is unset the
function throws `invalidInput`), then `Math.round (seekZero npv * 100) /
100` with the counter-threaded search. -/
def IRR (cfs : ℤ) (cashFlows : List ℚ) : Except IRRError ℚ :=
  if cashFlows.any (fun v => decide (0 < v)) &&
      cashFlows.any (fun v => decide (v < 0)) then
    match seekZeroTries cfs cashFlows with
    | .error e => .error e
    | .ok (x, _) => .ok (round2 x)
  else .error .invalidInput

/-- Structural-fuel formulation of `seekUpTries`: `fuel` is the number of
`npv` calls that may still complete, i.e. `(cfs - numberOfTries).toNat`.
Exhausted fuel is exactly the cap check `numberOfTries > cfs` firing. -/
def seekUp (cashFlows : List ℚ) : ℕ → ℚ → Option (ℚ × ℕ)
  | 0, _ => none
  | fuel + 1, x =>
    if 0 < npvAt cashFlows x then seekUp cashFlows fuel (x + 1)
    else some (x, fuel)

/-- Structural-fuel formulation of `seekDownTries`. -/
def seekDown (cashFlows : List ℚ) : ℕ → ℚ → Option (ℚ × ℕ)
  | 0, _ => none
  | fuel + 1, x =>
    if npvAt cashFlows x < 0 then seekDown cashFlows fuel (x - 1 / 100)
    else some (x, fuel)

/-- Structural-fuel formulation of `seekZeroTries` (remaining fuel is
returned alongside the root estimate). -/
def seekZeroFuel (cashFlows : List ℚ) (fuel : ℕ) : Option (ℚ × ℕ) :=
  match seekUp cashFlows fuel 1 with
  | none => none
  | some (x, f) =>
    match seekDown cashFlows f x with
    | none => none
    | some (y, f2) => some (y + 1 / 100, f2)

/-- Structural-fuel formulation of `IRR`; used for concrete evaluation. -/
def IRRfuel (cfs : ℤ) (cashFlows : List ℚ) : Except IRRError ℚ :=
  if cashFlows.any (fun v => decide (0 < v)) &&
      cashFlows.any (fun v => decide (v < 0)) then
    match seekZeroFuel cashFlows (cfs - 1).toNat with
    | none => .error .convergenceFailure
    | some (x, _) => .ok (round2 x)
  else .error .invalidInput

/-- Errors thrown by `Finance.XIRR` in `src/finance.ts`:
`lengthMismatch` is the throw "Number of cash flows and dates should
match" (lines 95-97), `missingSign` is the throw "XIRR requires at least
one positive value and one negative value" (lines 104-108).  The
specification classifies both as `InvalidInput`. -/
inductive XIRRError where
  | lengthMismatch
  | missingSign
deriving DecidableEq

/-- The observable content of `x.toFixed 5` as used by the XIRR
convergence test (line 127 of `src/finance.ts`): per the ECMAScript
specification of `toFixed`, the rendered string is determined by the sign
flag (whether `x < 0`) and the integer nearest `|x| * 10^5` (ties going to
the larger integer, i.e. `⌊|x| * 10^5 + 1/2⌋`).  Two (non-NaN) numbers
render equal strings under `toFixed 5` exactly when these pairs are
equal. -/
noncomputable def toFixed5 (x : ℝ) : Bool × ℤ :=
  (decide (x < 0), ⌊|x| * 100000 + 1 / 2⌋)

/-- `durYear` (lines 420-424 of `src/finance.ts`): duration in years
between two date values (epoch milliseconds), i.e.
`|last.getTime() - first.getTime()| / (1000 * 3600 * 24 * 365)` — a fixed
365-day year. -/
noncomputable def durYear (first last : ℤ) : ℝ :=
  ((|last - first| : ℤ) : ℝ) / ((1000 : ℝ) * 3600 * 24 * 365)

/-- The `durs` array built by `XIRR` (lines 114-121 of `src/finance.ts`):
`durs[0] = 0` is pushed first, then `durs[i] = durYear dates[0] dates[i]`
for `i = 1, …, dates.length - 1`. -/
noncomputable def xirrDurs (dates : List ℤ) : List ℝ :=
  0 :: (List.range' 1 (dates.length - 1)).map
    (fun i => durYear (dates.getD 0 0) (dates.getD i 0))

/-- `sumEq` (lines 403-413 of `src/finance.ts`):
`sum_fx = Σ cfs[i] / (1 + guess)^durs[i]` and
`sum_fdx = Σ -cfs[i] * durs[i] * (1 + guess)^(-1 - durs[i])`, both
accumulated by a loop over `i = 0, …, cfs.length - 1`; the result is
`sum_fx / sum_fdx`.  The exponents are arbitrary reals (`Math.pow`),
i.e. real `rpow`. -/
noncomputable def sumEq (cfs : List ℝ) (durs : List ℝ) (guess : ℝ) : ℝ :=
  let sum_fx := (List.range cfs.length).foldl
    (fun s i => s + cfs.getD i 0 / (1 + guess) ^ (durs.getD i 0)) 0
  let sum_fdx := (List.range cfs.length).foldl
    (fun s i => s + -(cfs.getD i 0) * durs.getD i 0 *
      (1 + guess) ^ (-1 - durs.getD i 0)) 0
  sum_fx / sum_fdx

/-- One pass of the XIRR loop body (line 125 of `src/finance.ts`):
`guess = guess_last - sumEq cashFlows durs guess_last`. -/
noncomputable def xirrStep (cfs durs : List ℝ) (g : ℝ) : ℝ := g - sumEq cfs durs g

/-- The do-while loop of `XIRR` (lines 123-127 of `src/finance.ts`), with
`limit` the remaining loop budget (initially 100): each pass sets
`guess_last := guess`, `guess := guess_last - sumEq cfs durs guess_last`,
decrements `limit`, and repeats while the two guesses print differently
under `toFixed 5` and `limit > 0`.  Returns the final
`(guess_last, guess)`. -/
noncomputable def xirrLoop (cfs durs : List ℝ) : ℕ → ℝ → ℝ × ℝ
  | 0, guess => (guess, xirrStep cfs durs guess)
  | limit + 1, guess =>
    if toFixed5 guess ≠ toFixed5 (xirrStep cfs durs guess) ∧ 0 < limit then
      xirrLoop cfs durs limit (xirrStep cfs durs guess)
    else (guess, xirrStep cfs durs guess)

/-- `Math.round (x * 100) / 100` over the reals (line 131 of
`src/finance.ts`). -/
noncomputable def round2R (x : ℝ) : ℝ := ((round (x * 100) : ℤ) : ℝ) / 100

/-- `Finance.XIRR` (lines 94-132 of `src/finance.ts`): the length check,
then the sign check, then `guess = !!guess ? guess : 0` (for numbers,
truthiness is being nonzero and non-NaN), the `durs` array, the Newton
do-while loop with budget 100, and finally `null` when the last two
guesses still print differently under `toFixed 5`, otherwise
`Math.round (guess * 100 * 100) / 100`. -/
noncomputable def XIRR (cashFlows : List ℝ) (dates : List ℤ) (guess : ℝ) :
    Except XIRRError (Option ℝ) :=
  if cashFlows.length ≠ dates.length then .error .lengthMismatch
  else if ¬ (cashFlows.any (fun v => decide (0 < v)) = true ∧
      cashFlows.any (fun v => decide (v < 0)) = true) then .error .missingSign
  else
    let g0 : ℝ := if guess ≠ 0 then guess else 0
    let p := xirrLoop cashFlows (xirrDurs dates) 100 g0
    if toFixed5 p.1 ≠ toFixed5 p.2 then .ok none
    else .ok (some (round2R (p.2 * 100)))

/-- The counter-threaded ascending loop coincides with its fuel
formulation: with `fuel = (cfs - t).toNat`, a throw is exactly fuel
exhaustion, and a normal exit with remaining fuel `f` corresponds to the
final counter `cfs - f`. -/
theorem seekUpTries_eq_fuel (cfs : ℤ) (cashFlows : List ℚ) :
    ∀ (n : ℕ) (x : ℚ) (t : ℤ), (cfs - t).toNat = n →
      seekUpTries cfs cashFlows x t =
        (match seekUp cashFlows n x with
          | none => .error .convergenceFailure
          | some (y, f) => .ok (y, cfs - f)) := by
  intro n
  induction n with
  | zero =>
    intro x t hn
    rw [seekUpTries, dif_pos (by omega)]
    rfl
  | succ n ih =>
    intro x t hn
    rw [seekUpTries, dif_neg (by omega)]
    by_cases hv : 0 < npvAt cashFlows x
    · rw [if_pos hv]
      show _ = (match seekUp cashFlows (n + 1) x with
        | none => Except.error IRRError.convergenceFailure
        | some (y, f) => Except.ok (y, cfs - f))
      rw [seekUp, if_pos hv]
      exact ih (x + 1) (t + 1) (by omega)
    · rw [if_neg hv]
      show _ = (match seekUp cashFlows (n + 1) x with
        | none => Except.error IRRError.convergenceFailure
        | some (y, f) => Except.ok (y, cfs - f))
      rw [seekUp, if_neg hv]
      have : cfs - (n : ℤ) = t + 1 := by omega
      simp [this]

/-- The counter-threaded descending loop coincides with its fuel
formulation. -/
theorem seekDownTries_eq_fuel (cfs : ℤ) (cashFlows : List ℚ) :
    ∀ (n : ℕ) (x : ℚ) (t : ℤ), (cfs - t).toNat = n →
      seekDownTries cfs cashFlows x t =
        (match seekDown cashFlows n x with
          | none => .error .convergenceFailure
          | some (y, f) => .ok (y, cfs - f)) := by
  intro n
  induction n with
  | zero =>
    intro x t hn
    rw [seekDownTries, dif_pos (by omega)]
    rfl
  | succ n ih =>
    intro x t hn
    rw [seekDownTries, dif_neg (by omega)]
    by_cases hv : npvAt cashFlows x < 0
    · rw [if_pos hv]
      show _ = (match seekDown cashFlows (n + 1) x with
        | none => Except.error IRRError.convergenceFailure
        | some (y, f) => Except.ok (y, cfs - f))
      rw [seekDown, if_pos hv]
      exact ih (x - 1 / 100) (t + 1) (by omega)
    · rw [if_neg hv]
      show _ = (match seekDown cashFlows (n + 1) x with
        | none => Except.error IRRError.convergenceFailure
        | some (y, f) => Except.ok (y, cfs - f))
      rw [seekDown, if_neg hv]
      have : cfs - (n : ℤ) = t + 1 := by omega
      simp [this]

/-- The counter-threaded `seekZero` coincides with its fuel formulation
(initial counter `1`, hence initial fuel `(cfs - 1).toNat`). -/
theorem seekZeroTries_eq_fuel (cfs : ℤ) (cashFlows : List ℚ) :
    seekZeroTries cfs cashFlows =
      (match seekZeroFuel cashFlows (cfs - 1).toNat with
        | none => .error .convergenceFailure
        | some (y, f) => .ok (y, cfs - f)) := by
  unfold seekZeroTries seekZeroFuel
  rw [seekUpTries_eq_fuel cfs cashFlows (cfs - 1).toNat 1 1 rfl]
  cases hu : seekUp cashFlows (cfs - 1).toNat 1 with
  | none => rfl
  | some p =>
    obtain ⟨x, f⟩ := p
    have hf : ((cfs - (cfs - (f : ℤ))).toNat) = f := by
      omega
    dsimp only
    rw [seekDownTries_eq_fuel cfs cashFlows f x (cfs - f) hf]
    cases hd : seekDown cashFlows f x with
    | none => rfl
    | some q => rfl

/-- `IRR` coincides with its fuel formulation. -/
theorem IRR_eq_fuel (cfs : ℤ) (cashFlows : List ℚ) :
    IRR cfs cashFlows = IRRfuel cfs cashFlows := by
  unfold IRR IRRfuel
  rw [seekZeroTries_eq_fuel]
  cases seekZeroFuel cashFlows (cfs - 1).toNat with
  | none => rfl
  | some p => rfl

/-- A left fold that only accumulates `f i` over a list of indices is the
initial value plus the sum of the mapped list. -/
theorem foldl_add_eq_sum {M : Type*} [AddCommMonoid M] (f : ℕ → M) :
    ∀ (l : List ℕ) (init : M),
      l.foldl (fun s i => s + f i) init = init + (l.map f).sum := by
  intro l
  induction l with
  | nil => intro init; simp
  | cons a l ih => intro init; simp [ih, add_assoc]

/-- Summing a function mapped over `List.range n` is the `Finset.range n`
sum. -/
theorem sum_map_range {M : Type*} [AddCommMonoid M] (f : ℕ → M) :
    ∀ n : ℕ, ((List.range n).map f).sum = ∑ i in Finset.range n, f i := by
  intro n
  induction n with
  | zero => simp
  | succ n ih => rw [List.range_succ, Finset.sum_range_succ]; simp [ih]

/-- A successful run of the counter-threaded `seekZero` ends with a
counter that never exceeded the cap. -/
theorem seekZeroTries_ok_le (cfs : ℤ) (cashFlows : List ℚ) (x : ℚ) (t : ℤ)
    (h : seekZeroTries cfs cashFlows = .ok (x, t)) : t ≤ cfs := by
  rw [seekZeroTries_eq_fuel] at h
  cases hz : seekZeroFuel cashFlows (cfs - 1).toNat with
  | none => rw [hz] at h; exact absurd h (by simp)
  | some p =>
    rw [hz] at h
    obtain ⟨y, f⟩ := p
    simp only [Except.ok.injEq, Prod.mk.injEq] at h
    omega

/-- The only error the counter-threaded `seekZero` can produce is
`convergenceFailure`. -/
theorem seekZeroTries_error_eq (cfs : ℤ) (cashFlows : List ℚ) (e : IRRError)
    (h : seekZeroTries cfs cashFlows = .error e) : e = .convergenceFailure := by
  rw [seekZeroTries_eq_fuel] at h
  cases hz : seekZeroFuel cashFlows (cfs - 1).toNat with
  | none => rw [hz] at h; simp only [Except.error.injEq] at h; exact h.symm
  | some p => rw [hz] at h; exact absurd h (by simp)

/-- C1.  For every cash-flow series containing at least one positive and
one negative value and every `maxTries` (`cfs`), `IRR` terminates: it
either returns a number or fails with `ConvergenceFailure` (never
`InvalidInput`), and on any run that returns, the final value of the
evaluation counter — which starts at `1` and is incremented once per
completed `npv` evaluation, so it equals `1 +` the number of completed
evaluations — never exceeded `maxTries`; hence at most `maxTries - 1`,
in particular at most `maxTries`, `npv` evaluations complete.  (In this
embedding `IRR` is a total function, so the theorem's dichotomy is
exactly the impossibility of an infinite loop.) -/
theorem irr_terminates (cfs : ℤ) (cashFlows : List ℚ)
    (hpos : cashFlows.any (fun v => decide (0 < v)) = true)
    (hneg : cashFlows.any (fun v => decide (v < 0)) = true) :
    ((∃ r, IRR cfs cashFlows = .ok r) ∨
      IRR cfs cashFlows = .error .convergenceFailure) ∧
    ∀ x t, seekZeroTries cfs cashFlows = .ok (x, t) → t ≤ cfs := by
  refine ⟨?_, fun x t h => seekZeroTries_ok_le cfs cashFlows x t h⟩
  unfold IRR
  rw [hpos, hneg]
  simp only [Bool.and_self, if_true]
  cases hz : seekZeroTries cfs cashFlows with
  | error e =>
    right
    rw [seekZeroTries_error_eq cfs cashFlows e hz]
  | ok p => exact Or.inl ⟨round2 p.1, rfl⟩

/-- Witness for C1 at `maxTries = 5`, `cashFlows = [-1, 2]`. -/
theorem irr_terminates_witness :
    ([-1, 2] : List ℚ).any (fun v => decide (0 < v)) = true ∧
    ([-1, 2] : List ℚ).any (fun v => decide (v < 0)) = true ∧
    (((∃ r, IRR 5 [-1, 2] = .ok r) ∨
        IRR 5 [-1, 2] = .error .convergenceFailure) ∧
      ∀ x t, seekZeroTries 5 [-1, 2] = .ok (x, t) → t ≤ 5) :=
  ⟨by norm_num [List.any], by norm_num [List.any],
    irr_terminates 5 [-1, 2] (by norm_num [List.any]) (by norm_num [List.any])⟩

/-- C2, counterexample.  The claim that descent-phase `npv` evaluations
are not counted against `maxTries` and cannot trigger
`ConvergenceFailure` is false: with `maxTries = 3` and
`cashFlows = [-1, 1.02]`, the ascent completes normally (`npv(1) > 0`,
`npv(2) = 0`, final counter = 3 = cap), yet `IRR` fails with
`ConvergenceFailure`, raised by the first descent-phase evaluation,
which pushes the shared counter to 4 > 3. -/
theorem irr_descent_counted_cex :
    seekUpTries 3 [-1, 51/50] 1 1 = .ok (2, 3) ∧
    IRR 3 [-1, 51/50] = .error .convergenceFailure := by
  constructor
  · rw [seekUpTries_eq_fuel 3 [-1, 51/50] 2 1 1 (by decide)]
    norm_num [seekUp, npvAt, List.range']
  · rw [IRR_eq_fuel]
    norm_num [IRRfuel, seekZeroFuel, seekUp, seekDown, npvAt, List.range', List.any]

/-- C2, amended.  The `maxTries` cap applies to every `npv` evaluation
through a single shared counter: evaluations made during the phase-2
descent are counted against `maxTries` exactly like ascent evaluations,
and when the descent exhausts the shared budget (the ascent having
completed with counter `t`), `IRR` fails with `ConvergenceFailure`. -/
theorem irr_descent_shares_counter (cfs : ℤ) (cashFlows : List ℚ) (x : ℚ) (t : ℤ)
    (hpos : cashFlows.any (fun v => decide (0 < v)) = true)
    (hneg : cashFlows.any (fun v => decide (v < 0)) = true)
    (hup : seekUpTries cfs cashFlows 1 1 = .ok (x, t))
    (hdown : seekDownTries cfs cashFlows x t = .error .convergenceFailure) :
    IRR cfs cashFlows = .error .convergenceFailure := by
  unfold IRR
  rw [hpos, hneg]
  simp only [Bool.and_self, if_true]
  unfold seekZeroTries
  rw [hup]
  dsimp only
  rw [hdown]

/-- Witness for the amended C2 at `maxTries = 3`,
`cashFlows = [-1, 1.02]`. -/
theorem irr_descent_shares_counter_witness :
    ([-1, 51/50] : List ℚ).any (fun v => decide (0 < v)) = true ∧
    ([-1, 51/50] : List ℚ).any (fun v => decide (v < 0)) = true ∧
    seekUpTries 3 [-1, 51/50] 1 1 = .ok (2, 3) ∧
    seekDownTries 3 [-1, 51/50] 2 3 = .error .convergenceFailure ∧
    IRR 3 [-1, 51/50] = .error .convergenceFailure := by
  have hpos : ([-1, 51/50] : List ℚ).any (fun v => decide (0 < v)) = true := by
    norm_num [List.any]
  have hneg : ([-1, 51/50] : List ℚ).any (fun v => decide (v < 0)) = true := by
    norm_num [List.any]
  have hup : seekUpTries 3 [-1, 51/50] 1 1 = .ok (2, 3) := by
    rw [seekUpTries_eq_fuel 3 [-1, 51/50] 2 1 1 (by decide)]
    norm_num [seekUp, npvAt, List.range']
  have hdown : seekDownTries 3 [-1, 51/50] 2 3 = .error .convergenceFailure := by
    rw [seekDownTries_eq_fuel 3 [-1, 51/50] 0 2 3 (by decide)]
    rfl
  exact ⟨hpos, hneg, hup, hdown,
    irr_descent_shares_counter 3 [-1, 51/50] 2 3 hpos hneg hup hdown⟩

/-- Normal exits of the ascending loop are characterised by the first
point (stepping by `+1` from the start) where the net present value stops
being positive. -/
theorem seekUp_spec (cashFlows : List ℚ) :
    ∀ (fuel : ℕ) (x y : ℚ) (f : ℕ),
      seekUp cashFlows fuel x = some (y, f) →
      ∃ a : ℕ, y = x + a ∧ fuel = f + a + 1 ∧
        (∀ j : ℕ, j < a → 0 < npvAt cashFlows (x + j)) ∧
        ¬ 0 < npvAt cashFlows (x + a) := by
  intro fuel
  induction fuel with
  | zero => intro x y f h; exact absurd h (by simp [seekUp])
  | succ fuel ih =>
    intro x y f h
    rw [seekUp] at h
    by_cases hv : 0 < npvAt cashFlows x
    · rw [if_pos hv] at h
      obtain ⟨a, hy, hf, hall, hend⟩ := ih (x + 1) y f h
      refine ⟨a + 1, ?_, by omega, ?_, ?_⟩
      · rw [hy]; push_cast; ring
      · intro j hj
        cases j with
        | zero => simpa using hv
        | succ j =>
          have hj2 := hall j (by omega)
          have e : x + 1 + (j : ℚ) = x + ((j : ℕ) + 1 : ℕ) := by push_cast; ring
          rwa [e] at hj2
      · have e : x + 1 + (a : ℚ) = x + ((a : ℕ) + 1 : ℕ) := by push_cast; ring
        rwa [e] at hend
    · rw [if_neg hv] at h
      simp only [Option.some.injEq, Prod.mk.injEq] at h
      refine ⟨0, by simp [h.1.symm], by omega, by simp, by simpa using hv⟩

/-- Normal exits of the descending loop are characterised by the first
point (stepping by `-0.01` from the start) where the net present value
stops being negative. -/
theorem seekDown_spec (cashFlows : List ℚ) :
    ∀ (fuel : ℕ) (x y : ℚ) (f : ℕ),
      seekDown cashFlows fuel x = some (y, f) →
      ∃ b : ℕ, y = x - b / 100 ∧ fuel = f + b + 1 ∧
        (∀ j : ℕ, j < b → npvAt cashFlows (x - j / 100) < 0) ∧
        ¬ npvAt cashFlows (x - b / 100) < 0 := by
  intro fuel
  induction fuel with
  | zero => intro x y f h; exact absurd h (by simp [seekDown])
  | succ fuel ih =>
    intro x y f h
    rw [seekDown] at h
    by_cases hv : npvAt cashFlows x < 0
    · rw [if_pos hv] at h
      obtain ⟨b, hy, hf, hall, hend⟩ := ih (x - 1 / 100) y f h
      refine ⟨b + 1, ?_, by omega, ?_, ?_⟩
      · rw [hy]; push_cast; ring
      · intro j hj
        cases j with
        | zero => simpa using hv
        | succ j =>
          have hj2 := hall j (by omega)
          have e : x - 1 / 100 - (j : ℚ) / 100 = x - (((j : ℕ) + 1 : ℕ) : ℚ) / 100 := by
            push_cast; ring
          rwa [e] at hj2
      · have e : x - 1 / 100 - (b : ℚ) / 100 = x - (((b : ℕ) + 1 : ℕ) : ℚ) / 100 := by
          push_cast; ring
        rwa [e] at hend
    · rw [if_neg hv] at h
      simp only [Option.some.injEq, Prod.mk.injEq] at h
      refine ⟨0, by simp [h.1.symm], by omega, by simp, by simpa using hv⟩

/-- C3.  When `IRR` succeeds, its search proceeded exactly as specified:
starting at rate `x = 1` percent it stepped by `+1` through rates
`1 + j` with positive net present value (`a` steps) until
`npv (1 + a) ≤ 0`; from there it stepped by `-0.01` through rates
`1 + a - j/100` with negative net present value (`b` steps) until
`npv (1 + a - b/100) ≥ 0`; the result is `x + 0.01` at that final `x`,
rounded to 2 decimal places of percentage. -/
theorem irr_success_search_shape (cfs : ℤ) (cashFlows : List ℚ) (r : ℚ)
    (h : IRR cfs cashFlows = .ok r) :
    ∃ a b : ℕ,
      (∀ j : ℕ, j < a → 0 < npvAt cashFlows (1 + j)) ∧
      npvAt cashFlows (1 + (a : ℚ)) ≤ 0 ∧
      (∀ j : ℕ, j < b → npvAt cashFlows (1 + (a : ℚ) - j / 100) < 0) ∧
      0 ≤ npvAt cashFlows (1 + (a : ℚ) - (b : ℚ) / 100) ∧
      r = round2 (1 + (a : ℚ) - (b : ℚ) / 100 + 1 / 100) := by
  rw [IRR_eq_fuel] at h
  unfold IRRfuel at h
  by_cases hb : (cashFlows.any (fun v => decide (0 < v)) &&
      cashFlows.any (fun v => decide (v < 0))) = true
  · rw [if_pos hb] at h
    unfold seekZeroFuel at h
    cases hu : seekUp cashFlows ((cfs - 1).toNat) 1 with
    | none => rw [hu] at h; exact absurd h (by simp)
    | some p =>
      rw [hu] at h
      obtain ⟨x1, f1⟩ := p
      dsimp only at h
      cases hd : seekDown cashFlows f1 x1 with
      | none => rw [hd] at h; exact absurd h (by simp)
      | some q =>
        rw [hd] at h
        obtain ⟨y2, f2⟩ := q
        dsimp only at h
        simp only [Except.ok.injEq] at h
        obtain ⟨a, hx1, _, hall1, hend1⟩ :=
          seekUp_spec cashFlows ((cfs - 1).toNat) 1 x1 f1 hu
        obtain ⟨b, hy2, _, hall2, hend2⟩ :=
          seekDown_spec cashFlows f1 x1 y2 f2 hd
        refine ⟨a, b, hall1, by simpa using hend1, ?_, ?_, ?_⟩
        · intro j hj
          have := hall2 j hj
          rwa [hx1] at this
        · rw [hx1] at hend2
          exact le_of_not_lt hend2
        · rw [← h, hy2, hx1]
  · rw [if_neg hb] at h
    exact absurd h (by simp)

/-- Witness for C3 at `maxTries = 10`, `cashFlows = [-1, 1.02]`, where
`IRR` succeeds with `2.01`. -/
theorem irr_success_search_shape_witness :
    IRR 10 [-1, 51/50] = .ok (201/100) ∧
    (∃ a b : ℕ,
      (∀ j : ℕ, j < a → 0 < npvAt [-1, 51/50] (1 + j)) ∧
      npvAt [-1, 51/50] (1 + (a : ℚ)) ≤ 0 ∧
      (∀ j : ℕ, j < b → npvAt [-1, 51/50] (1 + (a : ℚ) - j / 100) < 0) ∧
      0 ≤ npvAt [-1, 51/50] (1 + (a : ℚ) - (b : ℚ) / 100) ∧
      (201/100 : ℚ) = round2 (1 + (a : ℚ) - (b : ℚ) / 100 + 1 / 100)) := by
  have h : IRR 10 [-1, 51/50] = .ok (201/100) := by
    rw [IRR_eq_fuel]
    norm_num [IRRfuel, seekZeroFuel, seekUp, seekDown, npvAt, List.range', List.any,
      round2, round_eq]
  exact ⟨h, irr_success_search_shape 10 [-1, 51/50] (201/100) h⟩

/-- C4.  The inner `npv` helper of `IRR`, evaluated at a whole-percentage
rate on a series of length `n`, computes
`cashFlows[0] + Σ_{i ∈ [1, n)} cashFlows[i] / (1 + rate/100)^i`:
the leading entry is undiscounted and entry `i ≥ 1` is discounted by the
`i`-th power of `1 + rate/100`. -/
theorem npvAt_eq_discounted_sum (cashFlows : List ℚ) (rate : ℚ) :
    npvAt cashFlows rate =
      cashFlows.getD 0 0 +
        ∑ i in Finset.Ico 1 cashFlows.length,
          cashFlows.getD i 0 / (1 + rate / 100) ^ i := by
  simp only [npvAt]
  rw [foldl_add_eq_sum, List.range'_eq_map_range, List.map_map, sum_map_range,
    Finset.sum_Ico_eq_sum_range]
  simp [Function.comp]

/-- C5.  `IRR` fails with `InvalidInput` exactly when the series lacks a
strictly positive value or lacks a strictly negative value — in
particular on any all-positive series and on the empty series — and
since the theorem holds for every cap `cfs`, the rejection is decided
before (independently of) any `npv` evaluation: no `npv` evaluation is
charged against the counter on that path. -/
theorem irr_invalid_iff (cfs : ℤ) (cashFlows : List ℚ) :
    IRR cfs cashFlows = .error .invalidInput ↔
      (¬ (∃ v ∈ cashFlows, 0 < v) ∨ ¬ (∃ v ∈ cashFlows, v < 0)) := by
  unfold IRR
  by_cases hb : (cashFlows.any (fun v => decide (0 < v)) &&
      cashFlows.any (fun v => decide (v < 0))) = true
  · rw [if_pos hb]
    simp only [Bool.and_eq_true, List.any_eq_true, decide_eq_true_eq] at hb
    constructor
    · intro h
      cases hz : seekZeroTries cfs cashFlows with
      | error e =>
        rw [hz] at h
        simp only [Except.error.injEq] at h
        have := seekZeroTries_error_eq cfs cashFlows e hz
        rw [this] at h
        exact absurd h (by simp)
      | ok p => rw [hz] at h; exact absurd h (by simp)
    · intro h
      rcases h with h | h
      · exact absurd hb.1 h
      · exact absurd hb.2 h
  · rw [if_neg hb]
    simp only [Bool.and_eq_true, List.any_eq_true, decide_eq_true_eq, not_and_or] at hb
    simpa using hb

/-- C6.  `XIRR` fails (with one of its two `InvalidInput` errors) exactly
when the cash-flow and date lists have different lengths, or the series
lacks a strictly positive value, or lacks a strictly negative value; the
length check is performed first (a mismatch yields `lengthMismatch` even
when the sign condition is also violated), and on valid input no error is
possible — the checks precede every Newton iteration. -/
theorem xirr_invalid_iff (cashFlows : List ℝ) (dates : List ℤ) (guess : ℝ) :
    ((∃ e, XIRR cashFlows dates guess = .error e) ↔
      (cashFlows.length ≠ dates.length ∨
        ¬ (∃ v ∈ cashFlows, 0 < v) ∨ ¬ (∃ v ∈ cashFlows, v < 0))) ∧
    (cashFlows.length ≠ dates.length →
      XIRR cashFlows dates guess = .error .lengthMismatch) ∧
    (cashFlows.length = dates.length →
      ¬ ((∃ v ∈ cashFlows, 0 < v) ∧ (∃ v ∈ cashFlows, v < 0)) →
      XIRR cashFlows dates guess = .error .missingSign) := by
  unfold XIRR
  by_cases hlen : cashFlows.length ≠ dates.length
  · rw [if_pos hlen]
    exact ⟨⟨fun _ => Or.inl hlen, fun _ => ⟨.lengthMismatch, rfl⟩⟩,
      fun _ => rfl, fun h _ => absurd h hlen⟩
  · rw [if_neg hlen]
    by_cases hsig : (cashFlows.any (fun v => decide (0 < v)) = true ∧
        cashFlows.any (fun v => decide (v < 0)) = true)
    · rw [if_neg (not_not_intro hsig)]
      have hsig2 : (∃ v ∈ cashFlows, 0 < v) ∧ (∃ v ∈ cashFlows, v < 0) := by
        simpa [List.any_eq_true, decide_eq_true_eq] using hsig
      constructor
      · constructor
        · intro ⟨e, he⟩
          by_cases hfix : toFixed5 (xirrLoop cashFlows (xirrDurs dates) 100
              (if guess ≠ 0 then guess else 0)).1 ≠
              toFixed5 (xirrLoop cashFlows (xirrDurs dates) 100
                (if guess ≠ 0 then guess else 0)).2
          · rw [if_pos hfix] at he; exact absurd he (by simp)
          · rw [if_neg hfix] at he; exact absurd he (by simp)
        · intro h
          rcases h with h | h | h
          · exact absurd h hlen
          · exact absurd hsig2.1 h
          · exact absurd hsig2.2 h
      · exact ⟨fun h => absurd h hlen, fun _ h => absurd hsig2 h⟩
    · rw [if_pos hsig]
      have hsig2 : ¬ ((∃ v ∈ cashFlows, 0 < v) ∧ (∃ v ∈ cashFlows, v < 0)) := by
        simpa [List.any_eq_true, decide_eq_true_eq] using hsig
      refine ⟨⟨fun _ => Or.inr ?_, fun _ => ⟨.missingSign, rfl⟩⟩,
        fun h => absurd h hlen, fun _ _ => rfl⟩
      rcases not_and_or.mp hsig2 with h | h
      · exact Or.inl h
      · exact Or.inr h

/-- C7.  Each XIRR iteration applies the Newton-Raphson update
`next = current - f(current) / f'(current)` with
`f(rate) = Σ cashFlows[i] / (1 + rate)^durations[i]` and
`f'(rate) = Σ -cashFlows[i] * durations[i] * (1 + rate)^(-1 - durations[i])`
(`sumEq` returns the quotient `f / f'` and the loop body `xirrStep`
subtracts it from the current guess); the iteration is seeded at `guess`,
the falsy-default `!!guess ? guess : 0` being the identity on (non-NaN)
numbers since the only falsy real number is `0` itself. -/
theorem sumEq_newton_formula (cfs durs : List ℝ) (g : ℝ) :
    sumEq cfs durs g =
      (∑ i in Finset.range cfs.length, cfs.getD i 0 / (1 + g) ^ (durs.getD i 0)) /
        (∑ i in Finset.range cfs.length,
          -(cfs.getD i 0) * durs.getD i 0 * (1 + g) ^ (-1 - durs.getD i 0)) ∧
    xirrStep cfs durs g =
      g - (∑ i in Finset.range cfs.length, cfs.getD i 0 / (1 + g) ^ (durs.getD i 0)) /
        (∑ i in Finset.range cfs.length,
          -(cfs.getD i 0) * durs.getD i 0 * (1 + g) ^ (-1 - durs.getD i 0)) ∧
    ∀ gu : ℝ, (if gu ≠ 0 then gu else 0) = gu := by
  have h1 : sumEq cfs durs g =
      (∑ i in Finset.range cfs.length, cfs.getD i 0 / (1 + g) ^ (durs.getD i 0)) /
        (∑ i in Finset.range cfs.length,
          -(cfs.getD i 0) * durs.getD i 0 * (1 + g) ^ (-1 - durs.getD i 0)) := by
    simp only [sumEq]
    rw [foldl_add_eq_sum, foldl_add_eq_sum, sum_map_range, sum_map_range, zero_add,
      zero_add]
  refine ⟨h1, ?_, ?_⟩
  · rw [xirrStep, h1]
  · intro gu
    by_cases hg : gu = 0
    · simp [hg]
    · simp [hg]

/-- The do-while loop of `XIRR`, when every adjacent pair of guesses up to
the budget `L` prints differently under `toFixed 5`, runs all `L` passes
and ends holding the last two Newton iterates. -/
theorem xirrLoop_all_ne (cfs durs : List ℝ) :
    ∀ (L : ℕ) (x : ℝ), 1 ≤ L →
      (∀ k : ℕ, 1 ≤ k → k ≤ L →
        toFixed5 ((xirrStep cfs durs)^[k - 1] x) ≠
          toFixed5 ((xirrStep cfs durs)^[k] x)) →
      xirrLoop cfs durs L x =
        ((xirrStep cfs durs)^[L - 1] x, (xirrStep cfs durs)^[L] x) := by
  intro L
  induction L with
  | zero => intro x h _; omega
  | succ L ih =>
    intro x hL hall
    rw [xirrLoop]
    have h1 : toFixed5 x ≠ toFixed5 (xirrStep cfs durs x) := by
      have := hall 1 le_rfl (by omega)
      simpa using this
    have hshift : ∀ k : ℕ, (xirrStep cfs durs)^[k] (xirrStep cfs durs x) =
        (xirrStep cfs durs)^[k + 1] x := by
      intro k
      rw [Function.iterate_succ_apply]
    by_cases hL0 : 0 < L
    · rw [if_pos ⟨h1, hL0⟩]
      rw [ih (xirrStep cfs durs x) (by omega) ?_]
      · rw [hshift, hshift]
        have e1 : L - 1 + 1 = L := by omega
        have e2 : L + 1 - 1 = L := by omega
        rw [e1, e2]
      · intro k hk1 hkL
        rw [hshift, hshift]
        have e1 : k - 1 + 1 = k := by omega
        rw [e1]
        have := hall (k + 1) (by omega) (by omega)
        have e2 : k + 1 - 1 = k := by omega
        rwa [e2] at this
    · have hL1 : L = 0 := by omega
      subst hL1
      rw [if_neg (by simp)]
      simp

/-- The do-while loop of `XIRR`, when pass `N ≤ L` is the first whose two
guesses print equally under `toFixed 5`, stops there and ends holding
iterates `N - 1` and `N`. -/
theorem xirrLoop_first_eq (cfs durs : List ℝ) :
    ∀ (L : ℕ) (x : ℝ) (N : ℕ), 1 ≤ N → N ≤ L →
      toFixed5 ((xirrStep cfs durs)^[N - 1] x) =
        toFixed5 ((xirrStep cfs durs)^[N] x) →
      (∀ j : ℕ, 1 ≤ j → j < N →
        toFixed5 ((xirrStep cfs durs)^[j - 1] x) ≠
          toFixed5 ((xirrStep cfs durs)^[j] x)) →
      xirrLoop cfs durs L x =
        ((xirrStep cfs durs)^[N - 1] x, (xirrStep cfs durs)^[N] x) := by
  intro L
  induction L with
  | zero => intro x N h1 h2 _ _; omega
  | succ L ih =>
    intro x N hN1 hNL hNeq hprev
    rw [xirrLoop]
    have hshift : ∀ k : ℕ, (xirrStep cfs durs)^[k] (xirrStep cfs durs x) =
        (xirrStep cfs durs)^[k + 1] x := by
      intro k
      rw [Function.iterate_succ_apply]
    by_cases hN : N = 1
    · subst hN
      have heq : toFixed5 x = toFixed5 (xirrStep cfs durs x) := by simpa using hNeq
      rw [if_neg (by simp [heq])]
      simp
    · have h1 : toFixed5 x ≠ toFixed5 (xirrStep cfs durs x) := by
        have := hprev 1 le_rfl (by omega)
        simpa using this
      have hL0 : 0 < L := by omega
      rw [if_pos ⟨h1, hL0⟩]
      rw [ih (xirrStep cfs durs x) (N - 1) (by omega) (by omega) ?_ ?_]
      · rw [hshift, hshift]
        have e1 : N - 1 - 1 + 1 = N - 1 := by omega
        have e2 : N - 1 + 1 = N := by omega
        rw [e1, e2]
      · rw [hshift, hshift]
        have e1 : N - 1 - 1 + 1 = N - 1 := by omega
        have e2 : N - 1 + 1 = N := by omega
        rw [e1, e2]
        exact hNeq
      · intro j hj1 hjN
        rw [hshift, hshift]
        have e1 : j - 1 + 1 = j := by omega
        rw [e1]
        have := hprev (j + 1) (by omega) (by omega)
        have e2 : j + 1 - 1 = j := by omega
        rwa [e2] at this

/-- C8.  On valid input, `XIRR` stops when the previous and current
guesses agree under `toFixed 5` (5 decimal places of fractional rate) or
after the fixed budget of 100 iterations, whichever comes first: it
returns the null-like absence (`ok none`, not an error) exactly when all
100 adjacent pairs of Newton iterates disagree at 5 decimals, and when
pass `N ≤ 100` is the first agreeing pair it returns the converged
fractional rate times 100, rounded to 2 decimal places. -/
theorem xirr_stop_rule (cashFlows : List ℝ) (dates : List ℤ) (guess : ℝ)
    (hlen : cashFlows.length = dates.length)
    (hpos : cashFlows.any (fun v => decide (0 < v)) = true)
    (hneg : cashFlows.any (fun v => decide (v < 0)) = true) :
    (XIRR cashFlows dates guess = .ok none ↔
      ∀ k : ℕ, 1 ≤ k → k ≤ 100 →
        toFixed5 ((xirrStep cashFlows (xirrDurs dates))^[k - 1] guess) ≠
          toFixed5 ((xirrStep cashFlows (xirrDurs dates))^[k] guess)) ∧
    (∀ N : ℕ, 1 ≤ N → N ≤ 100 →
      toFixed5 ((xirrStep cashFlows (xirrDurs dates))^[N - 1] guess) =
        toFixed5 ((xirrStep cashFlows (xirrDurs dates))^[N] guess) →
      (∀ j : ℕ, 1 ≤ j → j < N →
        toFixed5 ((xirrStep cashFlows (xirrDurs dates))^[j - 1] guess) ≠
          toFixed5 ((xirrStep cashFlows (xirrDurs dates))^[j] guess)) →
      XIRR cashFlows dates guess =
        .ok (some (round2R ((xirrStep cashFlows (xirrDurs dates))^[N] guess * 100)))) := by
  have hseed : (if guess ≠ 0 then guess else 0) = guess := by
    by_cases h : guess = 0 <;> simp [h]
  have hXeq : XIRR cashFlows dates guess =
      if toFixed5 (xirrLoop cashFlows (xirrDurs dates) 100 guess).1 ≠
          toFixed5 (xirrLoop cashFlows (xirrDurs dates) 100 guess).2 then .ok none
        else .ok (some (round2R ((xirrLoop cashFlows (xirrDurs dates) 100 guess).2 * 100))) := by
    unfold XIRR
    rw [if_neg (not_not_intro hlen), if_neg (not_not_intro ⟨hpos, hneg⟩), hseed]
  constructor
  · constructor
    · intro h k hk1 hk100
      by_contra heq
      have heq2 : toFixed5 ((xirrStep cashFlows (xirrDurs dates))^[k - 1] guess) =
          toFixed5 ((xirrStep cashFlows (xirrDurs dates))^[k] guess) := heq
      have hP : ∃ n : ℕ, 1 ≤ n ∧ n ≤ 100 ∧
          toFixed5 ((xirrStep cashFlows (xirrDurs dates))^[n - 1] guess) =
            toFixed5 ((xirrStep cashFlows (xirrDurs dates))^[n] guess) :=
        ⟨k, hk1, hk100, heq2⟩
      have hdec : DecidablePred (fun n : ℕ => 1 ≤ n ∧ n ≤ 100 ∧
          toFixed5 ((xirrStep cashFlows (xirrDurs dates))^[n - 1] guess) =
            toFixed5 ((xirrStep cashFlows (xirrDurs dates))^[n] guess)) :=
        fun _ => Classical.propDecidable _
      have hspec := Nat.find_spec (p := fun n : ℕ => 1 ≤ n ∧ n ≤ 100 ∧
          toFixed5 ((xirrStep cashFlows (xirrDurs dates))^[n - 1] guess) =
            toFixed5 ((xirrStep cashFlows (xirrDurs dates))^[n] guess)) hP
      have hmin := fun j hj => Nat.find_min (p := fun n : ℕ => 1 ≤ n ∧ n ≤ 100 ∧
          toFixed5 ((xirrStep cashFlows (xirrDurs dates))^[n - 1] guess) =
            toFixed5 ((xirrStep cashFlows (xirrDurs dates))^[n] guess)) hP (m := j) hj
      obtain ⟨hs1, hs2, hs3⟩ := hspec
      have hloop := xirrLoop_first_eq cashFlows (xirrDurs dates) 100 guess
        (Nat.find hP) hs1 hs2 hs3 ?_
      · rw [hXeq, hloop, if_neg (not_not_intro hs3)] at h
        exact absurd h (by simp)
      · intro j hj1 hjN
        have hnp := hmin j hjN
        simp only [not_and_or] at hnp
        rcases hnp with hnp | hnp | hnp
        · omega
        · omega
        · exact hnp
    · intro hall
      have hloop := xirrLoop_all_ne cashFlows (xirrDurs dates) 100 guess (by omega) hall
      rw [hXeq, hloop, if_pos (hall 100 (by omega) le_rfl)]
  · intro N hN1 hN100 hNeq hprev
    have hloop := xirrLoop_first_eq cashFlows (xirrDurs dates) 100 guess N hN1 hN100
      hNeq hprev
    rw [hXeq, hloop, if_neg (not_not_intro hNeq)]

/-- Witness for C8 at `cashFlows = [-1000, -100, 1200]`,
`dates = [0, 1, 2]` (epoch milliseconds), `guess = 0`. -/
theorem xirr_stop_rule_witness :
    ([-1000, -100, 1200] : List ℝ).length = ([0, 1, 2] : List ℤ).length ∧
    ([-1000, -100, 1200] : List ℝ).any (fun v => decide (0 < v)) = true ∧
    ([-1000, -100, 1200] : List ℝ).any (fun v => decide (v < 0)) = true ∧
    ((XIRR [-1000, -100, 1200] [0, 1, 2] 0 = .ok none ↔
      ∀ k : ℕ, 1 ≤ k → k ≤ 100 →
        toFixed5 ((xirrStep [-1000, -100, 1200] (xirrDurs [0, 1, 2]))^[k - 1] 0) ≠
          toFixed5 ((xirrStep [-1000, -100, 1200] (xirrDurs [0, 1, 2]))^[k] 0)) ∧
    (∀ N : ℕ, 1 ≤ N → N ≤ 100 →
      toFixed5 ((xirrStep [-1000, -100, 1200] (xirrDurs [0, 1, 2]))^[N - 1] 0) =
        toFixed5 ((xirrStep [-1000, -100, 1200] (xirrDurs [0, 1, 2]))^[N] 0) →
      (∀ j : ℕ, 1 ≤ j → j < N →
        toFixed5 ((xirrStep [-1000, -100, 1200] (xirrDurs [0, 1, 2]))^[j - 1] 0) ≠
          toFixed5 ((xirrStep [-1000, -100, 1200] (xirrDurs [0, 1, 2]))^[j] 0)) →
      XIRR [-1000, -100, 1200] [0, 1, 2] 0 =
        .ok (some (round2R ((xirrStep [-1000, -100, 1200] (xirrDurs [0, 1, 2]))^[N] 0 * 100))))) :=
  ⟨by simp, by norm_num [List.any], by norm_num [List.any],
    xirr_stop_rule [-1000, -100, 1200] [0, 1, 2] 0 (by simp) (by norm_num [List.any])
      (by norm_num [List.any])⟩

/-- C9.  The durations `XIRR` precomputes satisfy `durs[0] = 0` and, for
`1 ≤ i < dates.length`,
`durs[i] = |dates[i] - dates[0]| / (1000 * 3600 * 24 * 365)` — the
absolute elapsed time in years between epoch-millisecond dates under a
fixed 365-day year, independent of the order of the two dates. -/
theorem xirrDurs_spec (dates : List ℤ) :
    (xirrDurs dates).getD 0 0 = 0 ∧
    ∀ i : ℕ, 1 ≤ i → i < dates.length →
      (xirrDurs dates).getD i 0 =
        |((dates.getD i 0 : ℤ) : ℝ) - ((dates.getD 0 0 : ℤ) : ℝ)| /
          (1000 * 3600 * 24 * 365) := by
  constructor
  · rfl
  · intro i h1 h2
    obtain ⟨j, rfl⟩ : ∃ j, i = j + 1 := ⟨i - 1, by omega⟩
    unfold xirrDurs
    rw [List.getD_cons_succ]
    have hj : j < ((List.range' 1 (dates.length - 1)).map
        (fun i => durYear (dates.getD 0 0) (dates.getD i 0))).length := by
      simp [List.length_range']
      omega
    rw [List.getD_eq_getElem?_getD, List.getElem?_eq_getElem hj, List.getElem_map,
      List.getElem_range']
    have e : 1 + 1 * j = j + 1 := by omega
    rw [e]
    unfold durYear
    push_cast
    rw [abs_sub_comm]
    simp

/-- C10.  The evaluation counter of `IRR` starts at `1` and is
incremented and checked against `maxTries` before each `npv` evaluation,
so on any run of the search that returns, the final counter `t` satisfies
`t - 1 ≤ maxTries - 1` — the number of completed evaluations being
`t - 1`, at most `maxTries - 1` evaluations ever complete; whenever the
counter has reached the cap (`maxTries ≤ t`, in particular on the very
first call when `maxTries ≤ 1`), the next `npv` call throws before
evaluating, and consequently `IRR` with `maxTries ≤ 1` on any
sign-changing series fails with `ConvergenceFailure` without completing a
single `npv` evaluation. -/
theorem irr_tries_budget (cfs : ℤ) (cashFlows : List ℚ) :
    (∀ x t, seekZeroTries cfs cashFlows = .ok (x, t) → t - 1 ≤ cfs - 1) ∧
    (∀ (x : ℚ) (t : ℤ), cfs ≤ t →
      seekUpTries cfs cashFlows x t = .error .convergenceFailure) ∧
    (cfs ≤ 1 →
      cashFlows.any (fun v => decide (0 < v)) = true →
      cashFlows.any (fun v => decide (v < 0)) = true →
      IRR cfs cashFlows = .error .convergenceFailure) := by
  refine ⟨fun x t h => by have := seekZeroTries_ok_le cfs cashFlows x t h; omega,
    fun x t ht => by rw [seekUpTries, dif_pos (by omega)],
    fun hcfs hpos hneg => ?_⟩
  unfold IRR
  rw [hpos, hneg]
  simp only [Bool.and_self, if_true]
  have h0 : (cfs - 1).toNat = 0 := by omega
  rw [seekZeroTries_eq_fuel, h0]
  rfl

end Finance
